import Mathlib

/-!
Shallow embedding of the `domain-query` crate: the typed value/datatype model
(`src/value.rs`), the property schema contract (`src/domain.rs`), the condition
primitives (`src/condition.rs`), the evaluation context and the expression DAG
with its partial evaluator (`src/expression.rs`), and the error taxonomy
(`src/error.rs`).  Rust's `Result<T>` becomes `Except Error T`; methods taking
`&mut self` become functions returning the updated state next to the result.
-/

namespace DomainQuery

/-- Embeds `Datatype` from `src/value.rs`: a closed enumeration of scalar kinds. -/
inductive Datatype where
  | Bool
  | Int
  | Str
  deriving DecidableEq

/-- Rendering of `Datatype` via its strum-derived `Display` (the variant name). -/
def Datatype.display : Datatype → String
  | .Bool => "Bool"
  | .Int => "Int"
  | .Str => "Str"

/-- Embeds `Value` from `src/value.rs`: a tagged union of scalar payloads.
Rust's `i64` payload is modelled as `Int`; the crate never performs arithmetic
on values (only equality and hashing), so no wrap-around can be observed. -/
inductive Value where
  | Bool (b : Bool)
  | Int (i : Int)
  | Str (s : String)
  deriving DecidableEq

/-- Embeds `Value::datatype` from `src/value.rs`. -/
def Value.datatype : Value → Datatype
  | .Bool _ => .Bool
  | .Int _ => .Int
  | .Str _ => .Str

/-- Embeds the `Display` impl for `Value` from `src/value.rs`. -/
def Value.display : Value → String
  | .Bool b => toString b
  | .Int i => toString i
  | .Str s => s

/-- Embeds `Error` from `src/error.rs`.  `IdentifierNotFound` carries a strum
`ParseError` payload in Rust, irrelevant to the evaluation core and dropped. -/
inductive Error where
  | IdentifierNotFound
  | TypeMismatch (property : String) (expected : Datatype) (actual : Datatype)
  | ExpressionNoop
  | ExpressionOutOfBounds (attempted : Nat) (last : Nat) (expr : String)
  | ExpressionFutureReference (opref : Nat) (at_op : Nat) (expr : String)
  | ExpressionDisconnected (idx : Nat) (node : String) (root : String)
  deriving DecidableEq

/-- Embeds the `Property` trait from `src/domain.rs`: a copyable identifier
exposing a display name and a declared datatype.  The `DomainEnum` supertrait
(iteration, parsing, printing) is not used by the evaluation core. -/
class Property (Pid : Type) where
  name : Pid → String
  datatype : Pid → Datatype

/-- Embeds `Property::validate` from `src/domain.rs`. -/
def Property.validate {Pid : Type} [Property Pid] (p : Pid) (value : Value) :
    Except Error Unit :=
  if Property.datatype p ≠ value.datatype then
    .error (.TypeMismatch (Property.name p) (Property.datatype p) value.datatype)
  else
    .ok ()

/-- Embeds `Is` from `src/condition.rs`.  The Rust field `variable` is a
reserved word in Lean and is spelled `var` here. -/
structure Is (Pid : Type) where
  var : Pid
  expected : Value
  deriving DecidableEq

/-- Embeds `Is::new` from `src/condition.rs`. -/
def Is.new {Pid : Type} [Property Pid] (var : Pid) (expected : Value) :
    Except Error (Is Pid) :=
  match Property.validate var expected with
  | .error err => .error err
  | .ok _ => .ok ⟨var, expected⟩

/-- Embeds `Is::eval` from `src/condition.rs`. -/
def Is.eval {Pid : Type} [Property Pid] (c : Is Pid) (actual : Value) :
    Except Error Bool :=
  match Property.validate c.var actual with
  | .error err => .error err
  | .ok _ => .ok (c.expected == actual)

/-- Embeds the `Display` impl for `Is` from `src/condition.rs`. -/
def Is.display {Pid : Type} [Property Pid] (c : Is Pid) : String :=
  Property.name c.var ++ " (" ++ (Property.datatype c.var).display ++ ") == "
    ++ c.expected.display

/-- Embeds `In` from `src/condition.rs`.  The Rust `expected` field is a
`HashSet<Value>`; it is modelled as the list of its elements in iteration
order (set iteration order is unspecified in Rust, and only membership and
the order in which members are validated depend on it). -/
structure In (Pid : Type) where
  var : Pid
  expected : List Value
  deriving DecidableEq

/-- Validation loop of `In::new` from `src/condition.rs`: validate each member
of the expected set in iteration order, stopping at the first mismatch. -/
def validateAll {Pid : Type} [Property Pid] (var : Pid) : List Value → Except Error Unit
  | [] => .ok ()
  | item :: rest =>
    match Property.validate var item with
    | .error err => .error err
    | .ok _ => validateAll var rest

/-- Embeds `In::new` from `src/condition.rs`. -/
def In.new {Pid : Type} [Property Pid] (var : Pid) (expected : List Value) :
    Except Error (In Pid) :=
  match validateAll var expected with
  | .error err => .error err
  | .ok _ => .ok ⟨var, expected⟩

/-- Embeds `In::eval` from `src/condition.rs`. -/
def In.eval {Pid : Type} [Property Pid] (c : In Pid) (actual : Value) :
    Except Error Bool :=
  match Property.validate c.var actual with
  | .error err => .error err
  | .ok _ => .ok (c.expected.contains actual)

/-- Embeds the `Display` impl for `In` from `src/condition.rs`. -/
def In.display {Pid : Type} [Property Pid] (c : In Pid) : String :=
  Property.name c.var ++ " (" ++ (Property.datatype c.var).display ++ ") in ["
    ++ String.join (c.expected.map (fun v => v.display ++ ", ")) ++ "]"

/-- Replace-or-append insertion into the association list that models the
`HashMap<Pid, Value>` field `provided` of `Context` (`src/expression.rs`). -/
def insertProvided {Pid : Type} [DecidableEq Pid] :
    List (Pid × Value) → Pid → Value → List (Pid × Value)
  | [], p, v => [(p, v)]
  | (q, w) :: rest, p, v =>
    if q = p then (p, v) :: rest else (q, w) :: insertProvided rest p v

/-- Lookup in the association list modelling `Context::provided`. -/
def lookupProvided {Pid : Type} [DecidableEq Pid] :
    List (Pid × Value) → Pid → Option Value
  | [], _ => none
  | (q, w) :: rest, p => if q = p then some w else lookupProvided rest p

/-- Embeds `Context` from `src/expression.rs`.  The Rust `requested` field is a
`HashSet<Pid>` and `provided` a `HashMap<Pid, Value>`; they are modelled as a
membership list and an association list with unique keys. -/
structure Context (Pid : Type) where
  requested : List Pid
  provided : List (Pid × Value)

/-- Embeds `Context::empty` from `src/expression.rs`. -/
def Context.empty {Pid : Type} : Context Pid := ⟨[], []⟩

/-- Embeds `Context::request` from `src/expression.rs` (the `HashSet` collect
dedups; the list model keeps duplicates, which agree on membership). -/
def Context.request {Pid : Type} (props : List Pid) : Context Pid := ⟨props, []⟩

/-- Embeds `Context::provide` from `src/expression.rs`.  The Rust method takes
`&mut self` and returns `Result<()>`; here the updated context is returned next
to the result, and the error path leaves the context unchanged exactly as the
early `return Err` does. -/
def Context.provide {Pid : Type} [Property Pid] [DecidableEq Pid]
    (c : Context Pid) (property : Pid) (value : Value) :
    Except Error Unit × Context Pid :=
  if Property.datatype property ≠ value.datatype then
    (.error (.TypeMismatch (Property.name property) (Property.datatype property)
        value.datatype), c)
  else if c.requested.contains property then
    (.ok (), { c with provided := insertProvided c.provided property value })
  else
    (.ok (), c)

/-- Embeds `Context::value` from `src/expression.rs`. -/
def Context.value {Pid : Type} [DecidableEq Pid] (c : Context Pid) (property : Pid) :
    Option Value :=
  lookupProvided c.provided property

/-- Embeds `testproperty.rs`'s `Property` enum (named `TestProperty` here to
avoid colliding with the `Property` trait): the crate's own test domain with
one property per datatype. -/
inductive TestProperty where
  | Bool
  | Int
  | Str
  deriving DecidableEq

instance : Property TestProperty where
  name
    | .Bool => "Property::Bool"
    | .Int => "Property::Int"
    | .Str => "Property::Str"
  datatype
    | .Bool => .Bool
    | .Int => .Int
    | .Str => .Str

/-- Embeds `OpRef` from `src/expression.rs`. -/
abbrev OpRef := Nat

/-- Embeds `Operation` from `src/expression.rs`: one node of the DAG. -/
inductive Operation (Pid : Type) where
  | Const (b : Bool)
  | Is (cond : DomainQuery.Is Pid)
  | In (cond : DomainQuery.In Pid)
  | Not (opref : OpRef)
  | Or (lhs : OpRef) (rhs : OpRef)
  | And (lhs : OpRef) (rhs : OpRef)
  deriving DecidableEq

/-- Embeds `RefCount` from `src/expression.rs`. -/
abbrev RefCount := Nat

/-- Embeds the `Operations<Pid>` alias from `src/expression.rs`:
the node list paired with each node's incoming-reference count. -/
abbrev Operations (Pid : Type) := List (Operation Pid × RefCount)

/-- Embeds `Expression` from `src/expression.rs`. -/
structure Expression (Pid : Type) where
  ops : Operations Pid
  deriving DecidableEq

/-- Embeds `Evaluated` from `src/expression.rs`. -/
inductive Evaluated (Pid : Type) where
  | Fully (res : Bool) (log : Operations Pid)
  | Partially (expr : Expression Pid)
  deriving DecidableEq

/-- Recursion core of `Expression::display` from `src/expression.rs`.  The Rust
method recurses through operand references; every reference produced by the
builder is strictly smaller than the index of the node holding it, so a fuel of
`ops.length + 1` reproduces the Rust recursion exactly on every expression the
builder can produce (fuel `0` is unreachable there). -/
def displayAux {Pid : Type} [Property Pid] (ops : Operations Pid) (last : Nat) :
    Nat → OpRef → String
  | 0, _ => ""
  | fuel + 1, rootref =>
    match ops[rootref]? with
    | some opc =>
      match opc.1 with
      | .Const val => toString val
      | .Is cond => cond.display
      | .In cond => cond.display
      | .Not opref => "!(" ++ displayAux ops last fuel opref ++ ")"
      | .Or lhs rhs =>
        "(" ++ displayAux ops last fuel lhs ++ " || " ++ displayAux ops last fuel rhs ++ ")"
      | .And lhs rhs =>
        "(" ++ displayAux ops last fuel lhs ++ " && " ++ displayAux ops last fuel rhs ++ ")"
    | none => "<badref: " ++ toString rootref ++ "/" ++ toString last ++ ">"

/-- Embeds `Expression::display` from `src/expression.rs`. -/
def Expression.display {Pid : Type} [Property Pid] (e : Expression Pid)
    (root : Option OpRef) : String :=
  let last := if e.ops.isEmpty then 0 else e.ops.length - 1
  displayAux e.ops last (e.ops.length + 1) (root.getD last)

/-- Embeds `Expression::last` from `src/expression.rs`. -/
def Expression.last {Pid : Type} [Property Pid] (e : Expression Pid) :
    Except Error OpRef :=
  if !e.ops.isEmpty then
    .ok (e.ops.length - 1)
  else
    .error (.ExpressionOutOfBounds 0 0 (e.display none))

/-- Embeds `Expression::valid` from `src/expression.rs` (on the error path the
`self.last()?` is evaluated first and its own failure propagates). -/
def Expression.valid {Pid : Type} [Property Pid] (e : Expression Pid) (op : OpRef) :
    Except Error OpRef :=
  if op < e.ops.length then
    .ok op
  else
    match e.last with
    | .error err => .error err
    | .ok l => .error (.ExpressionOutOfBounds op l (e.display none))

/-- Embeds `Expression::new` from `src/expression.rs`. -/
def Expression.new {Pid : Type} : Expression Pid := ⟨[]⟩

/-- Embeds `self.ops[opref].1 += 1` from the builder methods in
`src/expression.rs` (the index is always in bounds at every call site). -/
def incRef {Pid : Type} (ops : Operations Pid) (i : Nat) : Operations Pid :=
  match ops[i]? with
  | some opc => ops.set i (opc.1, opc.2 + 1)
  | none => ops

/-- Embeds `Expression::constant` from `src/expression.rs`.  Builder methods
take `&mut self` in Rust and return `Result<OpRef>`; here each returns the
result next to the post-call expression, the error path leaving it unchanged. -/
def Expression.constant {Pid : Type} [Property Pid] (e : Expression Pid)
    (value : Bool) : Except Error OpRef × Expression Pid :=
  let e' : Expression Pid := ⟨e.ops ++ [(.Const value, 0)]⟩
  (e'.last, e')

/-- Embeds `Expression::is` from `src/expression.rs`. -/
def Expression.is {Pid : Type} [Property Pid] (e : Expression Pid)
    (var : Pid) (value : Value) : Except Error OpRef × Expression Pid :=
  match Is.new var value with
  | .error err => (.error err, e)
  | .ok cond =>
    let e' : Expression Pid := ⟨e.ops ++ [(.Is cond, 0)]⟩
    (e'.last, e')

/-- Embeds `Expression::is_in` from `src/expression.rs`. -/
def Expression.is_in {Pid : Type} [Property Pid] (e : Expression Pid)
    (var : Pid) (values : List Value) : Except Error OpRef × Expression Pid :=
  match In.new var values with
  | .error err => (.error err, e)
  | .ok cond =>
    let e' : Expression Pid := ⟨e.ops ++ [(.In cond, 0)]⟩
    (e'.last, e')

/-- Embeds `Expression::not` from `src/expression.rs`: the operand is validated
before the node is pushed, then its reference count is incremented. -/
def Expression.not {Pid : Type} [Property Pid] (e : Expression Pid)
    (opref : OpRef) : Except Error OpRef × Expression Pid :=
  match e.valid opref with
  | .error err => (.error err, e)
  | .ok r =>
    let e' : Expression Pid := ⟨incRef (e.ops ++ [(.Not r, 0)]) opref⟩
    (e'.last, e')

/-- Embeds `Expression::or` from `src/expression.rs` (`lhs` is validated before
`rhs`, and both counts are incremented after the push — twice the same count
when `lhs = rhs`). -/
def Expression.or {Pid : Type} [Property Pid] (e : Expression Pid)
    (lhs rhs : OpRef) : Except Error OpRef × Expression Pid :=
  match e.valid lhs with
  | .error err => (.error err, e)
  | .ok l =>
    match e.valid rhs with
    | .error err => (.error err, e)
    | .ok r =>
      let e' : Expression Pid := ⟨incRef (incRef (e.ops ++ [(.Or l r, 0)]) lhs) rhs⟩
      (e'.last, e')

/-- Embeds `Expression::and` from `src/expression.rs`. -/
def Expression.and {Pid : Type} [Property Pid] (e : Expression Pid)
    (lhs rhs : OpRef) : Except Error OpRef × Expression Pid :=
  match e.valid lhs with
  | .error err => (.error err, e)
  | .ok l =>
    match e.valid rhs with
    | .error err => (.error err, e)
    | .ok r =>
      let e' : Expression Pid := ⟨incRef (incRef (e.ops ++ [(.And l r, 0)]) lhs) rhs⟩
      (e'.last, e')

/-- Embeds `Expression::eval_single` from `src/expression.rs`: resolve one node
against the already-produced output list and the context. -/
def Expression.eval_single {Pid : Type} [Property Pid] [DecidableEq Pid]
    (e : Expression Pid) (idx : OpRef) (op : Operation Pid)
    (results : Operations Pid) (context : Context Pid) :
    Except Error (Option Bool) :=
  match op with
  | .Is cond =>
    match context.value cond.var with
    | some val => (cond.eval val).map some
    | none => .ok none
  | .In cond =>
    match context.value cond.var with
    | some val => (cond.eval val).map some
    | none => .ok none
  | .Not opref =>
    match results[opref]? with
    | none => .error (.ExpressionFutureReference opref idx (e.display (some idx)))
    | some deref =>
      match deref.1 with
      | .Const val => .ok (some (!val))
      | _ => .ok none
  | .Or lhs rhs =>
    match results[lhs]? with
    | none => .error (.ExpressionFutureReference lhs idx (e.display (some idx)))
    | some lop =>
      match results[rhs]? with
      | none => .error (.ExpressionFutureReference rhs idx (e.display (some idx)))
      | some rop =>
        match lop.1, rop.1 with
        | .Const lval, .Const rval => .ok (some (lval || rval))
        | _, _ => .ok none
  | .And lhs rhs =>
    match results[lhs]? with
    | none => .error (.ExpressionFutureReference lhs idx (e.display (some idx)))
    | some lop =>
      match results[rhs]? with
      | none => .error (.ExpressionFutureReference rhs idx (e.display (some idx)))
      | some rop =>
        match lop.1, rop.1 with
        | .Const lval, .Const rval => .ok (some (lval && rval))
        | _, _ => .ok none
  | _ => .ok none

/-- The `for (idx, op) in self.ops.iter().enumerate()` loop of
`Expression::eval` from `src/expression.rs`: `idx` is the index of the head of
`rest` within `e.ops`, and `acc` the output list produced so far. -/
def Expression.evalLoop {Pid : Type} [Property Pid] [DecidableEq Pid]
    (e : Expression Pid) (context : Context Pid) :
    Nat → Operations Pid → Operations Pid → Except Error (Operations Pid)
  | _, [], acc => .ok acc
  | idx, (op, rc) :: rest, acc =>
    if rc ≤ 0 ∧ idx ≠ e.ops.length - 1 then
      .error (.ExpressionDisconnected idx (e.display (some idx)) (e.display none))
    else
      match e.eval_single idx op acc context with
      | .error err => .error err
      | .ok (some val) => e.evalLoop context (idx + 1) rest (acc ++ [(.Const val, rc)])
      | .ok none => e.evalLoop context (idx + 1) rest (acc ++ [(op, rc)])

/-- Embeds `Expression::eval` from `src/expression.rs`. -/
def Expression.eval {Pid : Type} [Property Pid] [DecidableEq Pid]
    (e : Expression Pid) (context : Context Pid) : Except Error (Evaluated Pid) :=
  if e.ops.isEmpty then
    .error .ExpressionNoop
  else
    match e.evalLoop context 0 e.ops [] with
    | .error err => .error err
    | .ok out =>
      match e.last with
      | .error err => .error err
      | .ok l =>
        match out[l]? with
        | some (.Const result, _) => .ok (.Fully result out)
        | _ => .ok (.Partially ⟨out⟩)

/-- The operand references of a node: the indices a `Not`/`Or`/`And` node wires
to (leaves and constants have none).  Used to state the spec's connectivity and
reference-count bookkeeping claims. -/
def Operation.operands {Pid : Type} : Operation Pid → List OpRef
  | .Not r => [r]
  | .Or l r => [l, r]
  | .And l r => [l, r]
  | _ => []

/-- A node is closed when it is not an `Is`/`In` leaf (spec: "only
constants/boolean-combinators"). -/
def Operation.closed {Pid : Type} : Operation Pid → Bool
  | .Is _ => false
  | .In _ => false
  | _ => true

/-- Decidable check that every node of the list is closed. -/
def checkClosed {Pid : Type} (ops : Operations Pid) : Bool :=
  ops.all (fun opc => opc.1.closed)

/-- Decidable check that every operand reference points to a strictly earlier
index — the shape every builder-produced expression has. -/
def checkBackRefs {Pid : Type} (ops : Operations Pid) : Bool :=
  (List.range ops.length).all fun i =>
    match ops[i]? with
    | some opc => opc.1.operands.all (fun r => decide (r < i))
    | none => true

/-- Decidable check that every non-root node has a nonzero reference count —
the connectivity invariant `Expression::eval` enforces. -/
def checkConnected {Pid : Type} (ops : Operations Pid) : Bool :=
  (List.range ops.length).all fun i =>
    match ops[i]? with
    | some opc => decide (i = ops.length - 1) || decide (opc.2 ≠ 0)
    | none => true

/-- A context is well typed when every value it holds matches its property's
declared datatype — an invariant `Context::provide` maintains. -/
def WellTypedContext {Pid : Type} [Property Pid] [DecidableEq Pid]
    (c : Context Pid) : Prop :=
  ∀ p val, c.value p = some val → Property.datatype p = val.datatype

/-- Spec-side semantics (from the spec's words, not the source): the boolean
value of one closed node given the values of all earlier nodes, by standard
boolean semantics; `Is`/`In` leaves and dangling references are given a dummy
`false`, irrelevant on closed well-referenced expressions. -/
def specSemOp {Pid : Type} (acc : List Bool) : Operation Pid → Bool
  | .Const b => b
  | .Not r => !(acc.getD r false)
  | .Or l r => (acc.getD l false) || (acc.getD r false)
  | .And l r => (acc.getD l false) && (acc.getD r false)
  | _ => false

/-- Spec-side semantics: values of all nodes, computed bottom-up in index
order. -/
def specSemValsAux {Pid : Type} (acc : List Bool) : List (Operation Pid) → List Bool
  | [] => acc
  | op :: rest => specSemValsAux (acc ++ [specSemOp acc op]) rest

/-- Spec-side semantics: the list of boolean values of a node list. -/
def specSemVals {Pid : Type} (ops : List (Operation Pid)) : List Bool :=
  specSemValsAux [] ops

/-- Spec-side semantics: the boolean value of the root (last) node. -/
def specRootValue {Pid : Type} (e : Expression Pid) : Bool :=
  (specSemVals (e.ops.map (fun opc => opc.1))).getD (e.ops.length - 1) false

/-- Number of operand occurrences of index `i` in the given node list. -/
def countRefsFrom {Pid : Type} (i : Nat) : List (Operation Pid) → Nat
  | [] => 0
  | op :: rest => op.operands.count i + countRefsFrom i rest

/-- The spec's reference-count meaning: how many times index `i` occurs as an
operand among the nodes stored at later indices. -/
def operandOccurrences {Pid : Type} (ops : Operations Pid) (i : Nat) : Nat :=
  countRefsFrom i ((ops.map (fun opc => opc.1)).drop (i + 1))

section ConditionConstruction

variable {Pid : Type} [Property Pid]

/-- `validateAll` succeeds exactly when every member matches the property's
declared datatype. -/
theorem validateAll_ok_iff (p : Pid) (S : List Value) :
    validateAll p S = .ok () ↔ ∀ w ∈ S, Property.datatype p = w.datatype := by
  induction S with
  | nil => simp [validateAll]
  | cons w rest ih =>
    by_cases h : Property.datatype p = w.datatype
    · simpa [validateAll, Property.validate, h] using ih
    · simp [validateAll, Property.validate, h]

/-- On failure, `validateAll` reports the type mismatch of some offending
member of the set. -/
theorem validateAll_error (p : Pid) (S : List Value) (err : Error)
    (h : validateAll p S = .error err) :
    ∃ w ∈ S, Property.datatype p ≠ w.datatype ∧
      err = .TypeMismatch (Property.name p) (Property.datatype p) w.datatype := by
  induction S with
  | nil => simp [validateAll] at h
  | cons w rest ih =>
    by_cases hw : Property.datatype p = w.datatype
    · simp only [validateAll, Property.validate, hw] at h
      simp only [ne_eq, not_true_eq_false, if_false] at h
      rcases ih (by simpa using h) with ⟨u, hu, hne, he⟩
      exact ⟨u, by simp [hu], hne, he⟩
    · refine ⟨w, by simp, hw, ?_⟩
      simp [validateAll, Property.validate, hw] at h
      exact h.symm

/-- C2: `Is::new(p, v)` succeeds iff `p.datatype() == v.datatype()` and
`In::new(p, S)` succeeds iff every member of `S` matches `p.datatype()`; each
failure is a `TypeMismatch` carrying exactly `p`'s name, `p`'s declared
datatype and the offending value's datatype, and no condition is produced. -/
theorem condition_new_type_safety (p : Pid) (v : Value) (S : List Value) :
    ((∃ c, Is.new p v = .ok c) ↔ Property.datatype p = v.datatype) ∧
    (Property.datatype p ≠ v.datatype →
      Is.new p v =
        .error (.TypeMismatch (Property.name p) (Property.datatype p) v.datatype)) ∧
    ((∃ c, In.new p S = .ok c) ↔ ∀ w ∈ S, Property.datatype p = w.datatype) ∧
    (∀ err, In.new p S = .error err →
      ∃ w ∈ S, Property.datatype p ≠ w.datatype ∧
        err = .TypeMismatch (Property.name p) (Property.datatype p) w.datatype) := by
  refine ⟨?_, ?_, ?_, ?_⟩
  · constructor
    · rintro ⟨c, hc⟩
      by_contra h
      simp [Is.new, Property.validate, h] at hc
    · intro h
      exact ⟨⟨p, v⟩, by simp [Is.new, Property.validate, h]⟩
  · intro h
    simp [Is.new, Property.validate, h]
  · constructor
    · rintro ⟨c, hc⟩
      rcases hv : validateAll p S with err | u
      · simp [In.new, hv] at hc
      · exact (validateAll_ok_iff p S).mp hv
    · intro h
      exact ⟨⟨p, S⟩, by simp [In.new, (validateAll_ok_iff p S).mpr h]⟩
  · intro err herr
    rcases hv : validateAll p S with err' | u
    · rcases validateAll_error p S err' hv with ⟨w, hw, hne, he⟩
      simp only [In.new, hv, Except.error.injEq] at herr
      exact ⟨w, hw, hne, herr ▸ he⟩
    · simp [In.new, hv] at herr

/-- C2 witness: concrete instances of every part of the type-safety theorem at
the crate's own test domain. -/
theorem condition_new_type_safety_witness :
    Is.new TestProperty.Int (Value.Bool false) =
      .error (.TypeMismatch "Property::Int" Datatype.Int Datatype.Bool) ∧
    (∃ c, Is.new TestProperty.Int (Value.Int 42) = .ok c) ∧
    (∃ c, In.new TestProperty.Int [Value.Int 41, Value.Int 42] = .ok c) := by
  have h := condition_new_type_safety TestProperty.Int (Value.Bool false)
    ([] : List Value)
  have h2 := condition_new_type_safety TestProperty.Int (Value.Int 42)
    [Value.Int 41, Value.Int 42]
  refine ⟨h.2.1 (by decide), h2.1.mpr (by decide), h2.2.2.1.mpr ?_⟩
  intro w hw
  fin_cases hw <;> decide

end ConditionConstruction

section ConditionEvaluation

variable {Pid : Type} [Property Pid]

/-- A successful `Is::new(p, v)` returns the condition binding `p` to `v`. -/
theorem Is_new_ok (p : Pid) (v : Value) (c : Is Pid) (hc : Is.new p v = .ok c) :
    c = ⟨p, v⟩ := by
  rcases h : Property.validate p v with err | u
  · simp [Is.new, h] at hc
  · simp only [Is.new, h, Except.ok.injEq] at hc
    exact hc.symm

/-- A successful `In::new(p, S)` returns the condition binding `p` to `S`. -/
theorem In_new_ok (p : Pid) (S : List Value) (d : In Pid)
    (hd : In.new p S = .ok d) : d = ⟨p, S⟩ := by
  rcases h : validateAll p S with err | u
  · simp [In.new, h] at hd
  · simp only [In.new, h, Except.ok.injEq] at hd
    exact hd.symm

/-- C3: for successfully constructed conditions `Is(p, v)` and `In(p, S)` and
any actual value `a`, evaluation fails with `TypeMismatch` iff `a`'s datatype
differs from `p`'s declared datatype; otherwise `Is` returns whether `a = v`
and `In` returns whether `a` is a member of `S`. -/
theorem condition_eval_semantics (p : Pid) (v : Value) (S : List Value)
    (a : Value) (c : Is Pid) (d : In Pid)
    (hc : Is.new p v = .ok c) (hd : In.new p S = .ok d) :
    (a.datatype ≠ Property.datatype p →
      c.eval a =
        .error (.TypeMismatch (Property.name p) (Property.datatype p) a.datatype) ∧
      d.eval a =
        .error (.TypeMismatch (Property.name p) (Property.datatype p) a.datatype)) ∧
    (a.datatype = Property.datatype p →
      c.eval a = .ok (decide (a = v)) ∧ d.eval a = .ok (decide (a ∈ S))) := by
  have hcv := Is_new_ok p v c hc
  have hdv := In_new_ok p S d hd
  subst hcv hdv
  constructor
  · intro h
    have h' : Property.datatype p ≠ a.datatype := fun hh => h hh.symm
    constructor <;> simp [Is.eval, In.eval, Property.validate, h']
  · intro h
    have h' : ¬ Property.datatype p ≠ a.datatype := by simp [h.symm]
    constructor
    · simp only [Is.eval, Property.validate, h', if_false, Except.ok.injEq]
      by_cases hv : a = v
      · simp [hv]
      · simp [hv]
        exact fun hh => hv hh.symm
    · simp only [In.eval, Property.validate, h', if_false, Except.ok.injEq]
      by_cases hm : a ∈ S <;> simp [hm]

/-- C3 witness: the crate's own condition test cases, obtained from the
semantics theorem at concrete conditions. -/
theorem condition_eval_semantics_witness :
    (⟨TestProperty.Int, Value.Int 42⟩ : Is TestProperty).eval (Value.Int 42) =
      .ok true ∧
    (⟨TestProperty.Int, Value.Int 42⟩ : Is TestProperty).eval (Value.Int 24) =
      .ok false ∧
    (⟨TestProperty.Int, [Value.Int 41, Value.Int 42]⟩ : In TestProperty).eval
      (Value.Int 42) = .ok true ∧
    (⟨TestProperty.Int, Value.Int 42⟩ : Is TestProperty).eval
      (Value.Str "hello") =
      .error (.TypeMismatch "Property::Int" Datatype.Int Datatype.Str) := by
  have h := condition_eval_semantics TestProperty.Int (Value.Int 42)
    [Value.Int 41, Value.Int 42] (Value.Int 42) _ _ rfl rfl
  have h24 := condition_eval_semantics TestProperty.Int (Value.Int 42)
    [Value.Int 41, Value.Int 42] (Value.Int 24) _ _ rfl rfl
  have hs := condition_eval_semantics TestProperty.Int (Value.Int 42)
    [Value.Int 41, Value.Int 42] (Value.Str "hello") _ _ rfl rfl
  refine ⟨?_, ?_, ?_, ?_⟩
  · rw [(h.2 (by decide)).1]; rfl
  · rw [(h24.2 (by decide)).1]; rfl
  · rw [(h.2 (by decide)).2]; rfl
  · exact (hs.1 (by decide)).1

end ConditionEvaluation

section ContextProvide

/-- C9 counterexample: a value whose datatype disagrees with its property makes
`provide` fail with `TypeMismatch` even though the property is not in the
requested set — the claim's "provide(p, v) succeeds for every value v" is
false, because the datatype check precedes the requested-set check. -/
theorem provide_unrequested_mismatch_cex :
    (Context.empty : Context TestProperty).requested = [] ∧
    ((Context.empty : Context TestProperty).provide TestProperty.Bool
        (Value.Int 42)).1 =
      .error (.TypeMismatch "Property::Bool" Datatype.Bool Datatype.Int) :=
  ⟨rfl, rfl⟩

/-- C9 (amended): for a property `p` not in the requested set, `provide(p, v)`
leaves the context observably unchanged, and succeeds iff `v`'s datatype
equals `p`'s declared datatype (failing with `TypeMismatch` otherwise). -/
theorem provide_unrequested_noop {Pid : Type} [Property Pid] [DecidableEq Pid]
    (c : Context Pid) (p : Pid) (v : Value) (h : p ∉ c.requested) :
    (c.provide p v).2 = c ∧
    ((c.provide p v).1 = .ok () ↔ Property.datatype p = v.datatype) := by
  by_cases hd : Property.datatype p = v.datatype
  · constructor <;> simp [Context.provide, hd, h]
  · constructor <;> simp [Context.provide, hd, h]

/-- C9 witness: providing an unrequested `Int` value of the right datatype
succeeds and returns the context unchanged. -/
theorem provide_unrequested_noop_witness :
    ((Context.request [TestProperty.Bool]).provide TestProperty.Int
      (Value.Int 7)).2 = Context.request [TestProperty.Bool] ∧
    ((Context.request [TestProperty.Bool]).provide TestProperty.Int
      (Value.Int 7)).1 = .ok () := by
  have h := provide_unrequested_noop (Context.request [TestProperty.Bool])
    TestProperty.Int (Value.Int 7) (by decide)
  exact ⟨h.1, h.2.mpr (by decide)⟩

end ContextProvide

/-- `incRef` never changes the length of the node list. -/
theorem incRef_length {Pid : Type} (ops : Operations Pid) (i : Nat) :
    (incRef ops i).length = ops.length := by
  unfold incRef
  rcases h : ops[i]? with _ | opc <;> simp

section BuilderBounds

variable {Pid : Type} [Property Pid]

/-- C8: `not`, `or` and `and` fail with `ExpressionOutOfBounds` exactly when an
operand index is `≥` the current node count and succeed (returning the new
node's index) when all operands are `< count`; every failing builder call —
including `is`/`is_in` failing with `TypeMismatch` — returns the expression
unchanged. -/
theorem builder_bounds_and_no_mutation (e : Expression Pid) (p : Pid)
    (v : Value) (vs : List Value) (i l r : OpRef) :
    (e.ops.length ≤ i →
      ∃ a b s, e.not i = (.error (.ExpressionOutOfBounds a b s), e)) ∧
    (i < e.ops.length → ∃ e', e.not i = (.ok e.ops.length, e')) ∧
    (e.ops.length ≤ l ∨ e.ops.length ≤ r →
      (∃ a b s, e.or l r = (.error (.ExpressionOutOfBounds a b s), e)) ∧
      (∃ a b s, e.and l r = (.error (.ExpressionOutOfBounds a b s), e))) ∧
    (l < e.ops.length → r < e.ops.length →
      (∃ e', e.or l r = (.ok e.ops.length, e')) ∧
      (∃ e', e.and l r = (.ok e.ops.length, e'))) ∧
    (Property.datatype p ≠ v.datatype →
      e.is p v = (.error (.TypeMismatch (Property.name p) (Property.datatype p)
        v.datatype), e)) ∧
    (∀ err, In.new p vs = .error err → e.is_in p vs = (.error err, e)) := by
  have hvalid_err : ∀ j, e.ops.length ≤ j →
      ∃ a b s, e.valid j = .error (.ExpressionOutOfBounds a b s) := by
    intro j hj
    have hj' : ¬ j < e.ops.length := not_lt.mpr hj
    by_cases hemp : e.ops.isEmpty
    · exact ⟨0, 0, e.display none, by simp [Expression.valid, hj',
        Expression.last, hemp]⟩
    · exact ⟨j, e.ops.length - 1, e.display none, by simp [Expression.valid,
        hj', Expression.last, hemp]⟩
  have hvalid_ok : ∀ j, j < e.ops.length → e.valid j = .ok j := by
    intro j hj
    simp [Expression.valid, hj]
  have hlast : ∀ (ops : Operations Pid), ops.length = e.ops.length + 1 →
      (Expression.mk ops).last = .ok e.ops.length := by
    intro ops hlen
    have : ops.isEmpty = false := by
      cases ops with
      | nil => simp at hlen
      | cons x xs => rfl
    simp [Expression.last, this, hlen]
  refine ⟨?_, ?_, ?_, ?_, ?_, ?_⟩
  · intro hi
    rcases hvalid_err i hi with ⟨a, b, s, hv⟩
    exact ⟨a, b, s, by simp [Expression.not, hv]⟩
  · intro hi
    refine ⟨⟨incRef (e.ops ++ [(.Not i, 0)]) i⟩, ?_⟩
    simp only [Expression.not, hvalid_ok i hi]
    rw [hlast _ (by simp [incRef_length])]
  · intro hor
    rcases hor with hl | hr
    · rcases hvalid_err l hl with ⟨a, b, s, hv⟩
      exact ⟨⟨a, b, s, by simp [Expression.or, hv]⟩,
        ⟨a, b, s, by simp [Expression.and, hv]⟩⟩
    · by_cases hl : l < e.ops.length
      · rcases hvalid_err r hr with ⟨a, b, s, hv⟩
        exact ⟨⟨a, b, s, by simp [Expression.or, hvalid_ok l hl, hv]⟩,
          ⟨a, b, s, by simp [Expression.and, hvalid_ok l hl, hv]⟩⟩
      · rcases hvalid_err l (not_lt.mp hl) with ⟨a, b, s, hv⟩
        exact ⟨⟨a, b, s, by simp [Expression.or, hv]⟩,
          ⟨a, b, s, by simp [Expression.and, hv]⟩⟩
  · intro hl hr
    constructor
    · refine ⟨⟨incRef (incRef (e.ops ++ [(.Or l r, 0)]) l) r⟩, ?_⟩
      simp only [Expression.or, hvalid_ok l hl, hvalid_ok r hr]
      rw [hlast _ (by simp [incRef_length])]
    · refine ⟨⟨incRef (incRef (e.ops ++ [(.And l r, 0)]) l) r⟩, ?_⟩
      simp only [Expression.and, hvalid_ok l hl, hvalid_ok r hr]
      rw [hlast _ (by simp [incRef_length])]
  · intro hd
    simp [Expression.is, Is.new, Property.validate, hd]
  · intro err herr
    simp [Expression.is_in, herr]

/-- C8 witness: concrete bounds failures and successes on a two-node
expression, plus an unchanged expression after a failing `is`. -/
theorem builder_bounds_and_no_mutation_witness :
    (∃ a b s, (Expression.mk [(.Const true, 0), (.Const false, 0)] :
        Expression TestProperty).not 2 =
      (.error (.ExpressionOutOfBounds a b s),
        Expression.mk [(.Const true, 0), (.Const false, 0)])) ∧
    (∃ e', (Expression.mk [(.Const true, 0), (.Const false, 0)] :
        Expression TestProperty).or 0 1 = (.ok 2, e')) ∧
    (Expression.mk [(.Const true, 0), (.Const false, 0)] :
        Expression TestProperty).is TestProperty.Int (Value.Bool false) =
      (.error (.TypeMismatch "Property::Int" Datatype.Int Datatype.Bool),
        Expression.mk [(.Const true, 0), (.Const false, 0)]) := by
  have h := builder_bounds_and_no_mutation
    (Expression.mk [(.Const true, 0), (.Const false, 0)] :
      Expression TestProperty)
    TestProperty.Int (Value.Bool false) [] 2 0 1
  exact ⟨h.1 (by decide), (h.2.2.2.1 (by decide) (by decide)).1,
    h.2.2.2.2.1 (by decide)⟩

end BuilderBounds


section FoldPolicy

variable {Pid : Type} [Property Pid] [DecidableEq Pid]

/-- When either operand of an `Or`/`And` node is not yet a `Const` in the
output list, `eval_single` leaves the node unresolved. -/
theorem hunres {Pid : Type} [Property Pid] [DecidableEq Pid]
    (e : Expression Pid) (ctx : Context Pid)
    (idx lhs rhs : OpRef) (opl opr : Operation Pid) (cl cr : RefCount)
    (res : Operations Pid)
    (hl : res[lhs]? = some (opl, cl)) (hr : res[rhs]? = some (opr, cr))
    (h : (∀ x, opl ≠ .Const x) ∨ (∀ y, opr ≠ .Const y)) :
    e.eval_single idx (.Or lhs rhs) res ctx = .ok none ∧
    e.eval_single idx (.And lhs rhs) res ctx = .ok none := by
  cases opl <;> cases opr <;>
    first
      | exact h.elim (fun hh => absurd rfl (hh _)) (fun hh => absurd rfl (hh _))
      | constructor <;> simp [Expression.eval_single, hl, hr]

/-- C4: during one evaluation pass an `Or`/`And` node folds to a constant iff
both of its operands have already been resolved to `Const` in the output list;
when either operand is still unresolved the node stays unresolved even if the
other operand alone would determine the result (a `Const true` for `Or`, a
`Const false` for `And`) — short-circuiting is never applied. -/
theorem or_and_fold_requires_both_const (e : Expression Pid) (ctx : Context Pid)
    (idx lhs rhs : OpRef) (opl opr : Operation Pid) (cl cr : RefCount)
    (res : Operations Pid)
    (hl : res[lhs]? = some (opl, cl)) (hr : res[rhs]? = some (opr, cr)) :
    ((∃ b, e.eval_single idx (.Or lhs rhs) res ctx = .ok (some b)) ↔
      (∃ x, opl = .Const x) ∧ (∃ y, opr = .Const y)) ∧
    ((∃ b, e.eval_single idx (.And lhs rhs) res ctx = .ok (some b)) ↔
      (∃ x, opl = .Const x) ∧ (∃ y, opr = .Const y)) ∧
    (∀ x y, opl = .Const x → opr = .Const y →
      e.eval_single idx (.Or lhs rhs) res ctx = .ok (some (x || y)) ∧
      e.eval_single idx (.And lhs rhs) res ctx = .ok (some (x && y))) ∧
    ((¬ ∃ y, opr = .Const y) →
      e.eval_single idx (.Or lhs rhs) res ctx = .ok none ∧
      e.eval_single idx (.And lhs rhs) res ctx = .ok none) ∧
    ((¬ ∃ x, opl = .Const x) →
      e.eval_single idx (.Or lhs rhs) res ctx = .ok none ∧
      e.eval_single idx (.And lhs rhs) res ctx = .ok none) := by
  refine ⟨?_, ?_, ?_, ?_, ?_⟩
  · constructor
    · rintro ⟨b, hb⟩
      simp only [Expression.eval_single, hl, hr] at hb
      cases opl <;> cases opr <;> simp at hb
      exact ⟨⟨_, rfl⟩, ⟨_, rfl⟩⟩
    · rintro ⟨⟨x, hx⟩, ⟨y, hy⟩⟩
      subst hx hy
      exact ⟨x || y, by simp [Expression.eval_single, hl, hr]⟩
  · constructor
    · rintro ⟨b, hb⟩
      simp only [Expression.eval_single, hl, hr] at hb
      cases opl <;> cases opr <;> simp at hb
      exact ⟨⟨_, rfl⟩, ⟨_, rfl⟩⟩
    · rintro ⟨⟨x, hx⟩, ⟨y, hy⟩⟩
      subst hx hy
      exact ⟨x && y, by simp [Expression.eval_single, hl, hr]⟩
  · intro x y hx hy
    subst hx hy
    constructor <;> simp [Expression.eval_single, hl, hr]
  · intro hnr
    refine hunres e ctx idx lhs rhs opl opr cl cr res hl hr
      (.inr (fun y hy => hnr ⟨y, hy⟩))
  · intro hnl
    refine hunres e ctx idx lhs rhs opl opr cl cr res hl hr
      (.inl (fun x hx => hnl ⟨x, hx⟩))

/-- C4 witness: an `Or` whose left operand already resolved to `Const true`
while the right operand is an unresolved `Is` leaf stays unresolved. -/
theorem or_and_fold_requires_both_const_witness :
    (Expression.new : Expression TestProperty).eval_single 2 (.Or 0 1)
      [(.Const true, 1), (.Is ⟨TestProperty.Int, Value.Int 5⟩, 1)]
      Context.empty = .ok none ∧
    (Expression.new : Expression TestProperty).eval_single 2 (.And 0 1)
      [(.Const true, 1), (.Is ⟨TestProperty.Int, Value.Int 5⟩, 1)]
      Context.empty = .ok none := by
  have h := or_and_fold_requires_both_const (Expression.new : Expression TestProperty)
    Context.empty 2 0 1 (.Const true) (.Is ⟨TestProperty.Int, Value.Int 5⟩) 1 1
    [(.Const true, 1), (.Is ⟨TestProperty.Int, Value.Int 5⟩, 1)] rfl rfl
  have hno : ¬ ∃ y, (Operation.Is ⟨TestProperty.Int, Value.Int 5⟩ :
      Operation TestProperty) = .Const y := by
    rintro ⟨y, hy⟩
    cases hy
  exact ⟨(h.2.2.2.1 hno).1, (h.2.2.2.1 hno).2⟩

end FoldPolicy

section PartialResidual

variable {Pid : Type} [Property Pid] [DecidableEq Pid]

/-- Shape of a successful evaluation pass: the output list extends the
accumulator with one entry per remaining node, each entry being the node
folded to the `Const` that `eval_single` resolved it to (keeping its reference
count), or the node itself when `eval_single` left it unresolved. -/
theorem evalLoop_ok_shape (e : Expression Pid) (ctx : Context Pid) :
    ∀ (rest acc out : Operations Pid) (idx : Nat),
      e.evalLoop ctx idx rest acc = .ok out →
      ∃ rest' : Operations Pid,
        out = acc ++ rest' ∧ rest'.length = rest.length ∧
        ∀ k opc, rest[k]? = some opc →
          ∃ r, e.eval_single (idx + k) opc.1 (acc ++ rest'.take k) ctx = .ok r ∧
            ((∃ v, r = some v ∧ rest'[k]? = some (.Const v, opc.2)) ∨
             (r = none ∧ rest'[k]? = some opc)) := by
  intro rest
  induction rest with
  | nil =>
    intro acc out idx h
    simp only [Expression.evalLoop] at h
    cases h
    exact ⟨[], by simp, rfl, fun k opc hk => by simp at hk⟩
  | cons hd rest2 ih =>
    intro acc out idx h
    obtain ⟨op, rc⟩ := hd
    simp only [Expression.evalLoop] at h
    split at h
    · exact Except.noConfusion h
    · split at h
      next err hsing => exact Except.noConfusion h
      next val hsing =>
        rcases ih (acc ++ [(.Const val, rc)]) out (idx + 1) h with
          ⟨rest2', hout, hlen, hspec⟩
        refine ⟨(.Const val, rc) :: rest2', by simpa using hout,
          by simpa using hlen, ?_⟩
        intro k opc hk
        cases k with
        | zero =>
          rw [List.getElem?_cons_zero] at hk
          cases hk
          exact ⟨some val, by simpa using hsing, .inl ⟨val, rfl, by simp⟩⟩
        | succ k =>
          rw [List.getElem?_cons_succ] at hk
          rcases hspec k opc hk with ⟨r, hr, hcase⟩
          refine ⟨r, ?_, ?_⟩
          · have harr : idx + (k + 1) = idx + 1 + k := by omega
            rw [harr]
            simpa [List.append_assoc] using hr
          · simpa using hcase
      next hsing =>
        rcases ih (acc ++ [(op, rc)]) out (idx + 1) h with
          ⟨rest2', hout, hlen, hspec⟩
        refine ⟨(op, rc) :: rest2', by simpa using hout, by simpa using hlen, ?_⟩
        intro k opc hk
        cases k with
        | zero =>
          rw [List.getElem?_cons_zero] at hk
          cases hk
          exact ⟨none, by simpa using hsing, .inr ⟨rfl, by simp⟩⟩
        | succ k =>
          rw [List.getElem?_cons_succ] at hk
          rcases hspec k opc hk with ⟨r, hr, hcase⟩
          refine ⟨r, ?_, ?_⟩
          · have harr : idx + (k + 1) = idx + 1 + k := by omega
            rw [harr]
            simpa [List.append_assoc] using hr
          · simpa using hcase

/-- A `Partially` result comes from a successful pass whose output list is the
residual's node list. -/
theorem eval_partially_loop (e res : Expression Pid) (ctx : Context Pid)
    (h : e.eval ctx = .ok (.Partially res)) :
    e.evalLoop ctx 0 e.ops [] = .ok res.ops := by
  by_cases hemp : e.ops.isEmpty
  · simp [Expression.eval, hemp] at h
  · rcases hloop : e.evalLoop ctx 0 e.ops [] with err | out
    · simp [Expression.eval, hemp, hloop] at h
    · simp only [Expression.eval, hemp, if_false, hloop, Expression.last,
        Bool.not_false, if_true] at h
      rcases hroot : out[e.ops.length - 1]? with _ | opc
      · simp only [hroot, Except.ok.injEq] at h
        cases h
        rfl
      · obtain ⟨oproot, rcroot⟩ := opc
        cases oproot <;> simp only [hroot, Except.ok.injEq] at h <;> cases h <;> rfl


/-- C5: whenever `eval` returns `Partially(residual)`, the residual has exactly
as many nodes as the original, every index holds either a `Const` (when the
node resolved in this pass) or an exact copy of the original node, and every
stored reference count equals the original one. -/
theorem partial_residual_preserves_shape (e res : Expression Pid)
    (ctx : Context Pid) (h : e.eval ctx = .ok (.Partially res)) :
    res.ops.length = e.ops.length ∧
    ∀ (i : Nat) (opc : Operation Pid × RefCount), e.ops[i]? = some opc →
      ∃ opc2 : Operation Pid × RefCount, res.ops[i]? = some opc2 ∧
        opc2.2 = opc.2 ∧ (opc2 = opc ∨ ∃ b, opc2.1 = Operation.Const b) := by
  have hloop := eval_partially_loop e res ctx h
  rcases evalLoop_ok_shape e ctx e.ops [] res.ops 0 hloop with
    ⟨rest', hout, hlen, hspec⟩
  simp only [List.nil_append] at hout
  subst hout
  refine ⟨hlen, ?_⟩
  intro i opc hi
  rcases hspec i opc hi with ⟨r, hr, hcase⟩
  rcases hcase with ⟨v, hv, hget⟩ | ⟨hv, hget⟩
  · exact ⟨(.Const v, opc.2), hget, rfl, .inr ⟨v, rfl⟩⟩
  · exact ⟨opc, hget, rfl, .inl rfl⟩

/-- C5 witness: a lone unresolved `Is` leaf evaluated against the empty
context yields a residual of the same shape. -/
theorem partial_residual_preserves_shape_witness :
    (Expression.mk [(.Is ⟨TestProperty.Int, Value.Int 7⟩, 0)] :
        Expression TestProperty).ops.length =
      (Expression.mk [(.Is ⟨TestProperty.Int, Value.Int 7⟩, 0)] :
        Expression TestProperty).ops.length :=
  (partial_residual_preserves_shape
    (Expression.mk [(.Is ⟨TestProperty.Int, Value.Int 7⟩, 0)])
    (Expression.mk [(.Is ⟨TestProperty.Int, Value.Int 7⟩, 0)])
    Context.empty rfl).1

/-- C6 counterexample inputs: `and(is(Bool, true), is_in(Int, {41, 42}))` as
the builder lays it out, and a context providing only `Bool = true`. -/
def exC6 : Expression TestProperty :=
  ⟨[(.Is ⟨TestProperty.Bool, Value.Bool true⟩, 1),
    (.In ⟨TestProperty.Int, [Value.Int 41, Value.Int 42]⟩, 1),
    (.And 0 1, 0)]⟩

/-- C6 counterexample context: `Bool = true` provided, `Int` still missing. -/
def ctxC6 : Context TestProperty :=
  ((Context.request [TestProperty.Bool, TestProperty.Int]).provide
    TestProperty.Bool (Value.Bool true)).2

/-- C6 counterexample residual: node 0 resolved during the pass and appears in
the residual folded to `Const true`. -/
def resC6 : Expression TestProperty :=
  ⟨[(.Const true, 1),
    (.In ⟨TestProperty.Int, [Value.Int 41, Value.Int 42]⟩, 1),
    (.And 0 1, 0)]⟩

/-- C6 counterexample: the residual does not contain only the unresolved
nodes — it has the same node count as the original, and the node at index 0,
which was resolved during this pass (it was an `Is` leaf and the context held
its value), appears in the residual as `Const true`. -/
theorem residual_keeps_resolved_nodes_cex :
    exC6.eval ctxC6 = .ok (.Partially resC6) ∧
    resC6.ops.length = exC6.ops.length ∧
    exC6.ops[0]? = some (.Is ⟨TestProperty.Bool, Value.Bool true⟩, 1) ∧
    resC6.ops[0]? = some (.Const true, 1) :=
  ⟨rfl, rfl, rfl, rfl⟩

/-- C6 (amended): whenever `eval` returns `Partially(residual)`, the residual
retains every node of the original: a node `eval_single` resolved to `v`
against the residual prefix appears folded to `Const v` with its reference
count preserved, and a node that could not be resolved appears unchanged. -/
theorem partial_residual_folds_resolved (e res : Expression Pid)
    (ctx : Context Pid) (h : e.eval ctx = .ok (.Partially res)) :
    res.ops.length = e.ops.length ∧
    ∀ (i : Nat) (opc : Operation Pid × RefCount), e.ops[i]? = some opc →
      ∃ r, e.eval_single i opc.1 (res.ops.take i) ctx = .ok r ∧
        ((∃ v, r = some v ∧ res.ops[i]? = some (Operation.Const v, opc.2)) ∨
         (r = none ∧ res.ops[i]? = some opc)) := by
  have hloop := eval_partially_loop e res ctx h
  rcases evalLoop_ok_shape e ctx e.ops [] res.ops 0 hloop with
    ⟨rest', hout, hlen, hspec⟩
  simp only [List.nil_append] at hout
  subst hout
  refine ⟨hlen, ?_⟩
  intro i opc hi
  have := hspec i opc hi
  simpa using this

/-- C6 witness: a lone unresolved `In` leaf evaluated against the empty
context, fed to the amended residual theorem. -/
theorem partial_residual_folds_resolved_witness :
    (Expression.mk [(.In ⟨TestProperty.Str, [Value.Str "x"]⟩, 0)] :
        Expression TestProperty).ops.length =
      (Expression.mk [(.In ⟨TestProperty.Str, [Value.Str "x"]⟩, 0)] :
        Expression TestProperty).ops.length :=
  (partial_residual_folds_resolved
    (Expression.mk [(.In ⟨TestProperty.Str, [Value.Str "x"]⟩, 0)])
    (Expression.mk [(.In ⟨TestProperty.Str, [Value.Str "x"]⟩, 0)])
    Context.empty rfl).1

end PartialResidual

/-- Bridging lemma: a passing `checkBackRefs` means every operand reference of
every node points strictly below the node's own index. -/
theorem checkBackRefs_spec {Pid : Type} (ops : Operations Pid) (h : checkBackRefs ops = true) :
    ∀ (i : Nat) (opc : Operation Pid × RefCount), ops[i]? = some opc →
      ∀ r ∈ opc.1.operands, r < i := by
  intro i opc hi r hr
  have hilen : i < ops.length := by
    by_contra hlen
    rw [List.getElem?_eq_none (by omega)] at hi
    cases hi
  have hall := List.all_eq_true.mp h i (List.mem_range.mpr hilen)
  rw [hi] at hall
  have := List.all_eq_true.mp hall r hr
  exact of_decide_eq_true this


section Disconnected

variable {Pid : Type} [Property Pid] [DecidableEq Pid]

/-- Against a well-typed context, `eval_single` never fails on a node whose
operand references all resolve within the output list produced so far. -/
theorem eval_single_no_error (e : Expression Pid) (ctx : Context Pid)
    (hwt : WellTypedContext ctx) (idx : Nat) (op : Operation Pid)
    (acc : Operations Pid) (hrefs : ∀ r ∈ op.operands, r < acc.length) :
    ∀ err, e.eval_single idx op acc ctx ≠ .error err := by
  intro err h
  cases op with
  | Const b => simp [Expression.eval_single] at h
  | Is cond =>
    rcases hv : ctx.value cond.var with _ | val
    · simp [Expression.eval_single, hv] at h
    · have hdt := hwt cond.var val hv
      simp [Expression.eval_single, hv, Is.eval, Property.validate, hdt,
        Except.map] at h
  | In cond =>
    rcases hv : ctx.value cond.var with _ | val
    · simp [Expression.eval_single, hv] at h
    · have hdt := hwt cond.var val hv
      simp [Expression.eval_single, hv, In.eval, Property.validate, hdt,
        Except.map] at h
  | Not r =>
    have hr : r < acc.length := hrefs r (by simp [Operation.operands])
    have hsome : acc[r]? = some acc[r] := List.getElem?_eq_getElem hr
    simp only [Expression.eval_single, hsome] at h
    cases hop : (acc[r]).1 <;> rw [hop] at h <;> simp at h
  | Or l2 r2 =>
    have hl : l2 < acc.length := hrefs l2 (by simp [Operation.operands])
    have hr2 : r2 < acc.length := hrefs r2 (by simp [Operation.operands])
    have hsl : acc[l2]? = some acc[l2] := List.getElem?_eq_getElem hl
    have hsr : acc[r2]? = some acc[r2] := List.getElem?_eq_getElem hr2
    simp only [Expression.eval_single, hsl, hsr] at h
    cases hop1 : (acc[l2]).1 <;> cases hop2 : (acc[r2]).1 <;>
      rw [hop1, hop2] at h <;> simp at h
  | And l2 r2 =>
    have hl : l2 < acc.length := hrefs l2 (by simp [Operation.operands])
    have hr2 : r2 < acc.length := hrefs r2 (by simp [Operation.operands])
    have hsl : acc[l2]? = some acc[l2] := List.getElem?_eq_getElem hl
    have hsr : acc[r2]? = some acc[r2] := List.getElem?_eq_getElem hr2
    simp only [Expression.eval_single, hsl, hsr] at h
    cases hop1 : (acc[l2]).1 <;> cases hop2 : (acc[r2]).1 <;>
      rw [hop1, hop2] at h <;> simp at h

/-- When index `i` is the first non-root node with a zero reference count, the
evaluation loop walks (successfully) through every earlier node and stops at
`i` with `ExpressionDisconnected`. -/
theorem evalLoop_reaches_disconnected (e : Expression Pid) (ctx : Context Pid)
    (hwt : WellTypedContext ctx) (hback : checkBackRefs e.ops = true)
    (i : Nat) (opi : Operation Pid) (hi : e.ops[i]? = some (opi, 0))
    (hnotroot : i ≠ e.ops.length - 1)
    (hmin : ∀ (j : Nat) (opc : Operation Pid × RefCount), j < i →
      e.ops[j]? = some opc → opc.2 ≠ 0 ∨ j = e.ops.length - 1) :
    ∀ (rest acc : Operations Pid), e.ops.drop acc.length = rest →
      acc.length ≤ i →
      e.evalLoop ctx acc.length rest acc =
        .error (.ExpressionDisconnected i (e.display (some i)) (e.display none)) := by
  have hilen : i < e.ops.length := by
    by_contra hlen
    rw [List.getElem?_eq_none (by omega)] at hi
    cases hi
  intro rest
  induction rest with
  | nil =>
    intro acc hdrop hle
    exfalso
    rw [List.drop_eq_nil_iff] at hdrop
    omega
  | cons hd rest2 ih =>
    intro acc hdrop hle
    obtain ⟨op, rc⟩ := hd
    have hidx : e.ops[acc.length]? = some (op, rc) := by
      have h0 := List.getElem?_drop e.ops acc.length 0
      rw [hdrop] at h0
      simp at h0
      exact h0.symm
    by_cases hii : acc.length = i
    · subst hii
      rw [hidx] at hi
      cases hi
      rw [Expression.evalLoop, if_pos ⟨Nat.le_refl 0, hnotroot⟩]
    · have hlt : acc.length < i := by omega
      have hcond : ¬ (rc ≤ 0 ∧ acc.length ≠ e.ops.length - 1) := by
        rintro ⟨hrc, hroot⟩
        have hrc0 : rc = 0 := Nat.le_zero.mp hrc
        rcases hmin acc.length (op, rc) hlt hidx with hne | heq
        · exact hne hrc0
        · exact hroot heq
      rw [Expression.evalLoop, if_neg hcond]
      have hrefs : ∀ r ∈ op.operands, r < acc.length :=
        checkBackRefs_spec e.ops hback acc.length (op, rc) hidx
      have hdrop2 : e.ops.drop (acc.length + 1) = rest2 := by
        have h1 : (e.ops.drop acc.length).tail = rest2 := by rw [hdrop]; rfl
        rw [← h1, List.tail_drop]
      rcases hres : e.eval_single acc.length op acc ctx with err | oval
      · exact absurd hres (eval_single_no_error e ctx hwt acc.length op acc hrefs err)
      · rcases oval with _ | val
        · have := ih (acc ++ [(op, rc)]) (by simpa using hdrop2)
            (by simp; omega)
          simpa using this
        · have := ih (acc ++ [(.Const val, rc)]) (by simpa using hdrop2)
            (by simp; omega)
          simpa using this

/-- C7 (amended): for a well-typed context and a builder-shaped expression
(operand references point strictly backwards), if `i` is the first index that
is both non-root and has a zero reference count, evaluation fails with
`ExpressionDisconnected` naming exactly index `i`. -/
theorem disconnected_first_failure (e : Expression Pid) (ctx : Context Pid)
    (hwt : WellTypedContext ctx) (hback : checkBackRefs e.ops = true)
    (i : Nat) (opi : Operation Pid) (hi : e.ops[i]? = some (opi, 0))
    (hnotroot : i ≠ e.ops.length - 1)
    (hmin : ∀ (j : Nat) (opc : Operation Pid × RefCount), j < i →
      e.ops[j]? = some opc → opc.2 ≠ 0 ∨ j = e.ops.length - 1) :
    ∃ s1 s2, e.eval ctx = .error (.ExpressionDisconnected i s1 s2) := by
  have hilen : i < e.ops.length := by
    by_contra hlen
    rw [List.getElem?_eq_none (by omega)] at hi
    cases hi
  have hne : e.ops.isEmpty = false := by
    cases hops : e.ops with
    | nil => rw [hops] at hilen; simp at hilen
    | cons x xs => rfl
  refine ⟨e.display (some i), e.display none, ?_⟩
  have hloop := evalLoop_reaches_disconnected e ctx hwt hback i opi hi
    hnotroot hmin e.ops [] (by simp) (by simp)
  simp only [List.length_nil] at hloop
  simp only [Expression.eval, hne, Bool.false_eq_true, if_false, hloop]

/-- C7 counterexample: in `[Const true, Const false, Const true]` (three
`constant` calls, nothing wired), index 1 is non-root with a zero reference
count, yet evaluation reports `ExpressionDisconnected` naming index 0 — the
first disconnected index — not 1. -/
theorem disconnected_names_first_index_cex :
    (⟨[(.Const true, 0), (.Const false, 0), (.Const true, 0)]⟩ :
      Expression TestProperty).ops[1]? = some (.Const false, 0) ∧
    (⟨[(.Const true, 0), (.Const false, 0), (.Const true, 0)]⟩ :
      Expression TestProperty).ops.length = 3 ∧
    (⟨[(.Const true, 0), (.Const false, 0), (.Const true, 0)]⟩ :
      Expression TestProperty).eval Context.empty =
      .error (.ExpressionDisconnected 0 "true" "true") :=
  ⟨rfl, rfl, rfl⟩

/-- C7 witness: in `[Const true (rc 1), Not 0 (rc 0), Const false (rc 0)]` the
first (and only) disconnected non-root index is 1, and evaluation against the
empty context reports it. -/
theorem disconnected_first_failure_witness :
    ∃ s1 s2, (⟨[(.Const true, 1), (.Not 0, 0), (.Const false, 0)]⟩ :
      Expression TestProperty).eval Context.empty =
      .error (.ExpressionDisconnected 1 s1 s2) := by
  refine disconnected_first_failure _ Context.empty ?_ (by decide) 1 (.Not 0)
    rfl (by decide) ?_
  · intro p val h
    simp [Context.value, Context.empty, lookupProvided] at h
  · intro j opc hj hopc
    have hj0 : j = 0 := by omega
    subst hj0
    rw [List.getElem?_cons_zero] at hopc
    cases hopc
    exact .inl (by decide)

end Disconnected

/-- Bridging lemma: a passing `checkClosed` means every stored node is a
constant or boolean combinator (no `Is`/`In` leaf). -/
theorem checkClosed_spec {Pid : Type} (ops : Operations Pid)
    (h : checkClosed ops = true) :
    ∀ (i : Nat) (opc : Operation Pid × RefCount), ops[i]? = some opc →
      opc.1.closed = true := by
  intro i opc hi
  exact List.all_eq_true.mp h opc (List.getElem?_mem hi)

/-- Bridging lemma: a passing `checkConnected` means every stored node is the
root (last index) or has a nonzero reference count. -/
theorem checkConnected_spec {Pid : Type} (ops : Operations Pid)
    (h : checkConnected ops = true) :
    ∀ (i : Nat) (opc : Operation Pid × RefCount), ops[i]? = some opc →
      i = ops.length - 1 ∨ opc.2 ≠ 0 := by
  intro i opc hi
  have hilen : i < ops.length := by
    by_contra hh
    rw [List.getElem?_eq_none (by omega)] at hi
    cases hi
  have hall := List.all_eq_true.mp h i (List.mem_range.mpr hilen)
  rw [hi] at hall
  simpa using hall

/-- `specSemValsAux` produces one value per node, after the seed values. -/
theorem specSemValsAux_length {Pid : Type} (ops : List (Operation Pid)) :
    ∀ acc : List Bool, (specSemValsAux acc ops).length = acc.length + ops.length := by
  induction ops with
  | nil =>
    intro acc
    simp [specSemValsAux]
  | cons op rest ih =>
    intro acc
    rw [specSemValsAux, ih]
    simp
    omega

/-- `zipWith` only consumes the needed prefix of its second list. -/
theorem zipWith_truncate {α β γ : Type} (f : α → β → γ) :
    ∀ (l1 : List α) (l2 : List β),
      List.zipWith f l1 l2 = List.zipWith f l1 (l2.take l1.length) := by
  intro l1
  induction l1 with
  | nil =>
    intro l2
    simp
  | cons x xs ih =>
    intro l2
    cases l2 with
    | nil => simp
    | cons y ys => simp [List.zipWith, ih ys]

/-- The entry a closed node folds to during a pass: the node's spec-side
boolean value with the node's stored reference count. -/
def foldEntry {Pid : Type} (b : Bool) (opc : Operation Pid × RefCount) :
    Operation Pid × RefCount := (Operation.Const b, opc.2)

section ClosedEval

variable {Pid : Type} [Property Pid] [DecidableEq Pid]

/-- On a closed, backward-referencing, connected expression the evaluation
loop folds every remaining node to the constant given by the spec-side
bottom-up boolean semantics, continuing from any consistent prefix. -/
theorem evalLoop_closed_aux (e : Expression Pid) (ctx : Context Pid)
    (hclosed : checkClosed e.ops = true)
    (hback : checkBackRefs e.ops = true)
    (hconn : checkConnected e.ops = true) :
    ∀ (rest acc : Operations Pid) (vals : List Bool),
      e.ops.drop vals.length = rest →
      acc = List.zipWith foldEntry vals e.ops →
      e.evalLoop ctx vals.length rest acc =
        .ok (List.zipWith foldEntry
          (specSemValsAux vals (rest.map (fun opc => opc.1))) e.ops) := by
  intro rest
  induction rest with
  | nil =>
    intro acc vals hdrop hacc
    simp [Expression.evalLoop, specSemValsAux, hacc]
  | cons hd rest2 ih =>
    intro acc vals hdrop hacc
    obtain ⟨op, rc⟩ := hd
    have hidx : e.ops[vals.length]? = some (op, rc) := by
      have h0 := List.getElem?_drop e.ops vals.length 0
      rw [hdrop] at h0
      simp at h0
      exact h0.symm
    have hvlen : vals.length < e.ops.length := by
      by_contra hh
      rw [List.getElem?_eq_none (by omega)] at hidx
      cases hidx
    have hcond : ¬ (rc ≤ 0 ∧ vals.length ≠ e.ops.length - 1) := by
      rintro ⟨hrc, hroot⟩
      rcases checkConnected_spec e.ops hconn vals.length (op, rc) hidx with h1 | h2
      · exact hroot h1
      · exact h2 (Nat.le_zero.mp hrc)
    have hrefs : ∀ r ∈ op.operands, r < vals.length :=
      checkBackRefs_spec e.ops hback vals.length (op, rc) hidx
    have hcl : op.closed = true :=
      checkClosed_spec e.ops hclosed vals.length (op, rc) hidx
    have hlook : ∀ r, r < vals.length →
        ∃ rc2, acc[r]? = some (.Const (vals.getD r false), rc2) := by
      intro r hr
      have hr2 : r < e.ops.length := by omega
      refine ⟨(e.ops.get ⟨r, hr2⟩).2, ?_⟩
      rw [hacc, List.getElem?_zipWith, List.getElem?_eq_getElem hr,
        List.getElem?_eq_getElem hr2]
      simp only [foldEntry, List.getD_eq_getElem vals false hr, List.get_eq_getElem]
    have htake : (e.ops.take vals.length).length = vals.length := by
      simp [List.length_take]
      omega
    have hz1 : List.zipWith foldEntry vals e.ops =
        List.zipWith foldEntry vals (e.ops.take vals.length) :=
      zipWith_truncate foldEntry vals e.ops
    have hz2 : List.zipWith foldEntry (vals ++ [specSemOp vals op]) e.ops =
        List.zipWith foldEntry vals (e.ops.take vals.length) ++
          [(.Const (specSemOp vals op), rc)] := by
      conv_lhs => rw [← List.take_append_drop vals.length e.ops]
      rw [List.zipWith_append _ _ _ _ _ htake.symm, hdrop]
      simp [foldEntry]
    have hstep : e.evalLoop ctx vals.length ((op, rc) :: rest2) acc =
        e.evalLoop ctx (vals.length + 1) rest2
          (acc ++ [(.Const (specSemOp vals op), rc)]) := by
      rw [Expression.evalLoop, if_neg hcond]
      cases op with
      | Const b => rfl
      | Is cond => simp [Operation.closed] at hcl
      | In cond => simp [Operation.closed] at hcl
      | Not r =>
        rcases hlook r (hrefs r (by simp [Operation.operands])) with ⟨rc2, hr2⟩
        simp [Expression.eval_single, hr2, specSemOp]
      | Or l2 r2 =>
        rcases hlook l2 (hrefs l2 (by simp [Operation.operands])) with ⟨rcl, hrl⟩
        rcases hlook r2 (hrefs r2 (by simp [Operation.operands])) with ⟨rcr, hrr⟩
        simp [Expression.eval_single, hrl, hrr, specSemOp]
      | And l2 r2 =>
        rcases hlook l2 (hrefs l2 (by simp [Operation.operands])) with ⟨rcl, hrl⟩
        rcases hlook r2 (hrefs r2 (by simp [Operation.operands])) with ⟨rcr, hrr⟩
        simp [Expression.eval_single, hrl, hrr, specSemOp]
    rw [hstep]
    have hdrop2 : e.ops.drop (vals.length + 1) = rest2 := by
      have h1 : (e.ops.drop vals.length).tail = rest2 := by rw [hdrop]; rfl
      rw [← h1, List.tail_drop]
    have hacc2 : acc ++ [(.Const (specSemOp vals op), rc)] =
        List.zipWith foldEntry (vals ++ [specSemOp vals op]) e.ops := by
      rw [hacc, hz1]
      exact hz2.symm
    have hrec := ih (List.zipWith foldEntry (vals ++ [specSemOp vals op]) e.ops)
      (vals ++ [specSemOp vals op]) (by simpa using hdrop2) rfl
    simp only [List.length_append, List.length_cons, List.length_nil] at hrec
    rw [hacc2, hrec]
    simp [specSemValsAux]

/-- C1 counterexample: an expression whose nodes are only constants, built by
two `constant` calls and never wired together, does not evaluate to `Fully` —
it fails with `ExpressionDisconnected` because node 0 is non-root with a zero
reference count. -/
theorem closed_eval_cex :
    checkClosed (⟨[(.Const true, 0), (.Const false, 0)]⟩ :
      Expression TestProperty).ops = true ∧
    (⟨[(.Const true, 0), (.Const false, 0)]⟩ :
      Expression TestProperty).eval Context.empty =
      .error (.ExpressionDisconnected 0 "true" "false") :=
  ⟨rfl, rfl⟩

/-- C1 (amended): a nonempty expression whose nodes are only `Const`, `Not`,
`Or` and `And`, whose operand references point to strictly earlier indices and
in which every non-root node has a nonzero reference count, evaluates against
the empty context to `Fully(v, log)` with `v` the boolean value of the root
node under standard bottom-up boolean semantics. -/
theorem closed_eval_fully_correct (e : Expression Pid)
    (hne : e.ops.isEmpty = false) (hclosed : checkClosed e.ops = true)
    (hback : checkBackRefs e.ops = true) (hconn : checkConnected e.ops = true) :
    ∃ log, e.eval (Context.empty : Context Pid) =
      .ok (.Fully (specRootValue e) log) := by
  have hloop := evalLoop_closed_aux e Context.empty hclosed hback hconn e.ops
    [] [] rfl rfl
  simp only [List.length_nil] at hloop
  have hlen0 : 0 < e.ops.length := by
    cases hops : e.ops with
    | nil => rw [hops] at hne; simp at hne
    | cons x xs => simp
  have hblen : (specSemValsAux ([] : List Bool)
      (e.ops.map (fun opc => opc.1))).length = e.ops.length := by
    rw [specSemValsAux_length]
    simp
  have hrootlt : e.ops.length - 1 < e.ops.length := by omega
  have hrootb : e.ops.length - 1 <
      (specSemValsAux ([] : List Bool) (e.ops.map (fun opc => opc.1))).length := by
    omega
  have hroot : (List.zipWith foldEntry
      (specSemValsAux [] (e.ops.map (fun opc => opc.1)))
        e.ops)[e.ops.length - 1]? =
      some (.Const (specRootValue e), (e.ops.get ⟨e.ops.length - 1, hrootlt⟩).2) := by
    rw [List.getElem?_zipWith, List.getElem?_eq_getElem hrootb,
      List.getElem?_eq_getElem hrootlt]
    simp only [foldEntry, List.get_eq_getElem, Option.some.injEq]
    rw [specRootValue, specSemVals, List.getD_eq_getElem _ false hrootb]
  refine ⟨List.zipWith foldEntry
    (specSemValsAux [] (e.ops.map (fun opc => opc.1))) e.ops, ?_⟩
  have hlast : e.last = .ok (e.ops.length - 1) := by
    simp [Expression.last, hne]
  simp only [Expression.eval, hne, Bool.false_eq_true, if_false, hloop, hlast,
    hroot]

/-- C1 witness: the crate's own test `((true || false) && false)` laid out as
the builder produces it, evaluated to `Fully false`. -/
theorem closed_eval_fully_correct_witness :
    ∃ log, (⟨[(.Const true, 1), (.Const false, 2), (.Or 0 1, 1),
        (.And 2 1, 0)]⟩ : Expression TestProperty).eval Context.empty =
      .ok (.Fully false log) := by
  have h := closed_eval_fully_correct
    (⟨[(.Const true, 1), (.Const false, 2), (.Or 0 1, 1), (.And 2 1, 0)]⟩ :
      Expression TestProperty) rfl (by decide) (by decide) (by decide)
  simpa using h

end ClosedEval

/-- `countRefsFrom` distributes over list append. -/
theorem countRefsFrom_append {Pid : Type} (i : Nat)
    (l1 l2 : List (Operation Pid)) :
    countRefsFrom i (l1 ++ l2) = countRefsFrom i l1 + countRefsFrom i l2 := by
  induction l1 with
  | nil => simp [countRefsFrom]
  | cons op rest ih =>
    simp [countRefsFrom, ih]
    omega

/-- Appending a node adds that node's operand occurrences of every existing
index to its occurrence count. -/
theorem operandOccurrences_append {Pid : Type} (ops : Operations Pid)
    (x : Operation Pid × RefCount) (i : Nat) (h : i < ops.length) :
    operandOccurrences (ops ++ [x]) i =
      operandOccurrences ops i + x.1.operands.count i := by
  unfold operandOccurrences
  rw [List.map_append, List.drop_append_of_le_length (by simp; omega),
    countRefsFrom_append]
  simp [countRefsFrom]

/-- A freshly appended node has no operand occurrences among later nodes. -/
theorem operandOccurrences_new {Pid : Type} (ops : Operations Pid)
    (x : Operation Pid × RefCount) :
    operandOccurrences (ops ++ [x]) ops.length = 0 := by
  unfold operandOccurrences
  rw [List.drop_eq_nil_of_le (by simp)]
  rfl

/-- Setting an entry it already holds leaves a list unchanged. -/
theorem set_self_of_getElem {α : Type} :
    ∀ (l : List α) (j : Nat) (a : α), l[j]? = some a → l.set j a = l := by
  intro l
  induction l with
  | nil =>
    intro j a h
    rw [List.getElem?_nil] at h
    cases h
  | cons x xs ih =>
    intro j a h
    cases j with
    | zero =>
      rw [List.getElem?_cons_zero] at h
      cases h
      rfl
    | succ j =>
      rw [List.getElem?_cons_succ] at h
      simp [List.set, ih j a h]

/-- `incRef` touches only reference counts, never the stored operations. -/
theorem incRef_map_fst {Pid : Type} (ops : Operations Pid) (j : Nat) :
    (incRef ops j).map (fun opc => opc.1) = ops.map (fun opc => opc.1) := by
  unfold incRef
  rcases h : ops[j]? with _ | opc
  · rfl
  · rw [List.map_set]
    apply set_self_of_getElem
    rw [List.getElem?_map, h]
    rfl

/-- Hence `incRef` does not change any operand occurrence count. -/
theorem operandOccurrences_incRef {Pid : Type} (ops : Operations Pid)
    (j i : Nat) :
    operandOccurrences (incRef ops j) i = operandOccurrences ops i := by
  unfold operandOccurrences
  rw [incRef_map_fst]

/-- Entry-level description of `incRef`: the count at `j` goes up by one, all
other entries are untouched. -/
theorem incRef_getElem {Pid : Type} (ops : Operations Pid) (j i : Nat) :
    (incRef ops j)[i]? =
      if i = j then (ops[i]?).map (fun opc => (opc.1, opc.2 + 1))
      else ops[i]? := by
  unfold incRef
  rcases h : ops[j]? with _ | opc
  · by_cases hij : i = j
    · subst hij
      simp [h]
    · simp [hij]
  · have hj : j < ops.length := by
      by_contra hh
      rw [List.getElem?_eq_none (by omega)] at h
      cases h
    by_cases hij : i = j
    · subst hij
      rw [List.getElem?_set_self]
      · simp [hj, h]
      · exact hj
    · rw [List.getElem?_set_ne (fun hh => hij hh.symm)]
      simp [hij]

/-- `incRef` preserves list length (stated once more at entry level). -/
theorem incRef_length_eq {Pid : Type} (ops : Operations Pid) (j : Nat) :
    (incRef ops j).length = ops.length := incRef_length ops j

section RefCounts

variable {Pid : Type} [Property Pid]

/-- Expressions reachable from `Expression::new` through successful builder
calls. -/
inductive Built : Expression Pid → Prop where
  | empty : Built Expression.new
  | constant (e e' : Expression Pid) (b : Bool) (idx : OpRef)
      (prev : Built e) (step : e.constant b = (.ok idx, e')) : Built e'
  | is (e e' : Expression Pid) (p : Pid) (v : Value) (idx : OpRef)
      (prev : Built e) (step : e.is p v = (.ok idx, e')) : Built e'
  | is_in (e e' : Expression Pid) (p : Pid) (vs : List Value) (idx : OpRef)
      (prev : Built e) (step : e.is_in p vs = (.ok idx, e')) : Built e'
  | not (e e' : Expression Pid) (r idx : OpRef)
      (prev : Built e) (step : e.not r = (.ok idx, e')) : Built e'
  | or (e e' : Expression Pid) (l r idx : OpRef)
      (prev : Built e) (step : e.or l r = (.ok idx, e')) : Built e'
  | and (e e' : Expression Pid) (l r idx : OpRef)
      (prev : Built e) (step : e.and l r = (.ok idx, e')) : Built e'

/-- A successful `valid` call returns its argument, which is in bounds. -/
theorem valid_ok (e : Expression Pid) (j k : OpRef) (h : e.valid j = .ok k) :
    k = j ∧ j < e.ops.length := by
  unfold Expression.valid at h
  by_cases hj : j < e.ops.length
  · rw [if_pos hj] at h
    cases h
    exact ⟨rfl, hj⟩
  · rw [if_neg hj] at h
    rcases hl : e.last with err | l3 <;> rw [hl] at h <;> exact Except.noConfusion h

/-- Shape of a successful `is` call. -/
theorem is_ok_shape (e e' : Expression Pid) (p : Pid) (v : Value) (idx : OpRef)
    (h : e.is p v = (.ok idx, e')) :
    ∃ cond, e'.ops = e.ops ++ [(.Is cond, 0)] := by
  unfold Expression.is at h
  rcases hn : Is.new p v with err | cond <;> rw [hn] at h
  · simp at h
  · refine ⟨cond, ?_⟩
    have h2 := congrArg Prod.snd h
    simp only at h2
    rw [← h2]

/-- Shape of a successful `is_in` call. -/
theorem is_in_ok_shape (e e' : Expression Pid) (p : Pid) (vs : List Value)
    (idx : OpRef) (h : e.is_in p vs = (.ok idx, e')) :
    ∃ cond, e'.ops = e.ops ++ [(.In cond, 0)] := by
  unfold Expression.is_in at h
  rcases hn : In.new p vs with err | cond <;> rw [hn] at h
  · simp at h
  · refine ⟨cond, ?_⟩
    have h2 := congrArg Prod.snd h
    simp only at h2
    rw [← h2]

/-- Shape of a successful `not` call. -/
theorem not_ok_shape (e e' : Expression Pid) (r idx : OpRef)
    (h : e.not r = (.ok idx, e')) :
    r < e.ops.length ∧ e'.ops = incRef (e.ops ++ [(.Not r, 0)]) r := by
  unfold Expression.not at h
  rcases hv : e.valid r with err | r2 <;> rw [hv] at h
  · simp at h
  · obtain ⟨hr2, hlt⟩ := valid_ok e r r2 hv
    subst hr2
    have h2 := congrArg Prod.snd h
    simp only at h2
    exact ⟨hlt, by rw [← h2]⟩

/-- Shape of a successful `or` call. -/
theorem or_ok_shape (e e' : Expression Pid) (l r idx : OpRef)
    (h : e.or l r = (.ok idx, e')) :
    l < e.ops.length ∧ r < e.ops.length ∧
      e'.ops = incRef (incRef (e.ops ++ [(.Or l r, 0)]) l) r := by
  unfold Expression.or at h
  rcases hvl : e.valid l with err | l2 <;> rw [hvl] at h
  · simp at h
  · rcases hvr : e.valid r with err | r2 <;> rw [hvr] at h
    · simp at h
    · obtain ⟨hl2, hllt⟩ := valid_ok e l l2 hvl
      obtain ⟨hr2, hrlt⟩ := valid_ok e r r2 hvr
      subst hl2 hr2
      have h2 := congrArg Prod.snd h
      simp only at h2
      exact ⟨hllt, hrlt, by rw [← h2]⟩

/-- Shape of a successful `and` call. -/
theorem and_ok_shape (e e' : Expression Pid) (l r idx : OpRef)
    (h : e.and l r = (.ok idx, e')) :
    l < e.ops.length ∧ r < e.ops.length ∧
      e'.ops = incRef (incRef (e.ops ++ [(.And l r, 0)]) l) r := by
  unfold Expression.and at h
  rcases hvl : e.valid l with err | l2 <;> rw [hvl] at h
  · simp at h
  · rcases hvr : e.valid r with err | r2 <;> rw [hvr] at h
    · simp at h
    · obtain ⟨hl2, hllt⟩ := valid_ok e l l2 hvl
      obtain ⟨hr2, hrlt⟩ := valid_ok e r r2 hvr
      subst hl2 hr2
      have h2 := congrArg Prod.snd h
      simp only at h2
      exact ⟨hllt, hrlt, by rw [← h2]⟩

end RefCounts

section RefCountInvariant

variable {Pid : Type}

/-- Appending a leaf node (no operands, fresh zero count) preserves the
count-equals-occurrences invariant. -/
theorem refcounts_after_leaf (ops : Operations Pid) (x : Operation Pid)
    (hleaf : x.operands = [])
    (ih : ∀ (i : Nat) (opc : Operation Pid × RefCount), ops[i]? = some opc →
      opc.2 = operandOccurrences ops i) :
    ∀ (i : Nat) (opc : Operation Pid × RefCount),
      (ops ++ [(x, 0)])[i]? = some opc →
      opc.2 = operandOccurrences (ops ++ [(x, 0)]) i := by
  intro i opc h0
  by_cases hlt : i < ops.length
  · rw [List.getElem?_append, if_pos hlt] at h0
    rw [operandOccurrences_append _ _ _ hlt]
    simp only [hleaf, List.count_nil, Nat.add_zero]
    exact ih i opc h0
  · by_cases heq : i = ops.length
    · subst heq
      rw [List.getElem?_append_right (le_refl _)] at h0
      simp only [Nat.sub_self, List.getElem?_cons_zero, Option.some.injEq] at h0
      rw [← h0, operandOccurrences_new]
    · rw [List.getElem?_eq_none (by simp; omega)] at h0
      cases h0

/-- Appending a `Not` node and bumping its operand preserves the invariant. -/
theorem refcounts_after_not (ops : Operations Pid) (r : OpRef)
    (hr : r < ops.length)
    (ih : ∀ (i : Nat) (opc : Operation Pid × RefCount), ops[i]? = some opc →
      opc.2 = operandOccurrences ops i) :
    ∀ (i : Nat) (opc : Operation Pid × RefCount),
      (incRef (ops ++ [(.Not r, 0)]) r)[i]? = some opc →
      opc.2 = operandOccurrences (incRef (ops ++ [(.Not r, 0)]) r) i := by
  intro i opc h0
  rw [operandOccurrences_incRef]
  rw [incRef_getElem] at h0
  by_cases hir : i = r
  · subst hir
    rw [if_pos rfl, List.getElem?_append, if_pos hr,
      List.getElem?_eq_getElem hr] at h0
    simp only [Option.map_some', Option.some.injEq] at h0
    rw [← h0, operandOccurrences_append _ _ _ hr]
    have hih := ih i (ops[i]) (List.getElem?_eq_getElem hr)
    have hc : (Operation.Not i : Operation Pid).operands.count i = 1 := by
      simp [Operation.operands, List.count_cons]
    show (ops[i]).2 + 1 =
      operandOccurrences ops i + (Operation.Not i : Operation Pid).operands.count i
    rw [hc, hih]
  · rw [if_neg hir] at h0
    by_cases hlt : i < ops.length
    · rw [List.getElem?_append, if_pos hlt] at h0
      rw [operandOccurrences_append _ _ _ hlt]
      have hc : (Operation.Not r : Operation Pid).operands.count i = 0 := by
        simp [Operation.operands, List.count_eq_zero]
        exact hir
      show opc.2 =
        operandOccurrences ops i + (Operation.Not r : Operation Pid).operands.count i
      rw [hc]
      simpa using ih i opc h0
    · by_cases heq : i = ops.length
      · subst heq
        rw [List.getElem?_append_right (le_refl _)] at h0
        simp only [Nat.sub_self, List.getElem?_cons_zero, Option.some.injEq] at h0
        rw [← h0, operandOccurrences_new]
      · rw [List.getElem?_eq_none (by simp; omega)] at h0
        cases h0

/-- Appending a two-operand node and bumping both operands preserves the
invariant (a repeated operand is bumped twice). -/
theorem refcounts_after_two (ops : Operations Pid) (x : Operation Pid)
    (l r : OpRef) (hx : x.operands = [l, r])
    (hl : l < ops.length) (hr : r < ops.length)
    (ih : ∀ (i : Nat) (opc : Operation Pid × RefCount), ops[i]? = some opc →
      opc.2 = operandOccurrences ops i) :
    ∀ (i : Nat) (opc : Operation Pid × RefCount),
      (incRef (incRef (ops ++ [(x, 0)]) l) r)[i]? = some opc →
      opc.2 = operandOccurrences (incRef (incRef (ops ++ [(x, 0)]) l) r) i := by
  intro i opc h0
  rw [operandOccurrences_incRef, operandOccurrences_incRef]
  rw [incRef_getElem, incRef_getElem] at h0
  by_cases hil : i = l <;> by_cases hir : i = r
  · subst hil
    subst hir
    rw [if_pos rfl, if_pos rfl, List.getElem?_append, if_pos hl,
      List.getElem?_eq_getElem hl] at h0
    simp only [Option.map_some', Option.some.injEq] at h0
    rw [← h0, operandOccurrences_append _ _ _ hl]
    have hih := ih i (ops[i]) (List.getElem?_eq_getElem hl)
    have hc : x.operands.count i = 2 := by
      rw [hx]
      simp [List.count_cons]
    show (ops[i]).2 + 1 + 1 = operandOccurrences ops i + x.operands.count i
    rw [hc, hih]
  · subst hil
    rw [if_neg hir, if_pos rfl, List.getElem?_append, if_pos hl,
      List.getElem?_eq_getElem hl] at h0
    simp only [Option.map_some', Option.some.injEq] at h0
    rw [← h0, operandOccurrences_append _ _ _ hl]
    have hih := ih i (ops[i]) (List.getElem?_eq_getElem hl)
    have hne : (r == i) = false := beq_eq_false_iff_ne.mpr (fun hh => hir hh.symm)
    have hc : x.operands.count i = 1 := by
      rw [hx]
      simp [List.count_cons, hne]
    show (ops[i]).2 + 1 = operandOccurrences ops i + x.operands.count i
    rw [hc, hih]
  · subst hir
    rw [if_pos rfl, if_neg hil, List.getElem?_append, if_pos hr,
      List.getElem?_eq_getElem hr] at h0
    simp only [Option.map_some', Option.some.injEq] at h0
    rw [← h0, operandOccurrences_append _ _ _ hr]
    have hih := ih i (ops[i]) (List.getElem?_eq_getElem hr)
    have hne : (l == i) = false := beq_eq_false_iff_ne.mpr (fun hh => hil hh.symm)
    have hc : x.operands.count i = 1 := by
      rw [hx]
      simp [List.count_cons, hne]
    show (ops[i]).2 + 1 = operandOccurrences ops i + x.operands.count i
    rw [hc, hih]
  · rw [if_neg hir, if_neg hil] at h0
    by_cases hlt : i < ops.length
    · rw [List.getElem?_append, if_pos hlt] at h0
      rw [operandOccurrences_append _ _ _ hlt]
      have hnel : (l == i) = false := beq_eq_false_iff_ne.mpr (fun hh => hil hh.symm)
      have hner : (r == i) = false := beq_eq_false_iff_ne.mpr (fun hh => hir hh.symm)
      have hc : x.operands.count i = 0 := by
        rw [hx]
        simp [List.count_cons, hnel, hner]
      show opc.2 = operandOccurrences ops i + x.operands.count i
      rw [hc]
      simpa using ih i opc h0
    · by_cases heq : i = ops.length
      · subst heq
        rw [List.getElem?_append_right (le_refl _)] at h0
        simp only [Nat.sub_self, List.getElem?_cons_zero, Option.some.injEq] at h0
        rw [← h0, operandOccurrences_new]
      · rw [List.getElem?_eq_none (by simp; omega)] at h0
        cases h0

end RefCountInvariant

section RefCountTheorem

variable {Pid : Type} [Property Pid]

/-- The reference-count invariant holds for every expression the builder can
produce: each node's stored count equals the number of operand occurrences of
its index among the later nodes. -/
theorem built_refcounts (e : Expression Pid) (h : Built e) :
    ∀ (i : Nat) (opc : Operation Pid × RefCount), e.ops[i]? = some opc →
      opc.2 = operandOccurrences e.ops i := by
  induction h with
  | empty =>
    intro i opc h0
    rw [show (Expression.new : Expression Pid).ops = [] from rfl,
      List.getElem?_nil] at h0
    cases h0
  | constant e0 e' b idx prev step ih =>
    have hs : e'.ops = e0.ops ++ [(.Const b, 0)] := by
      have h2 := congrArg Prod.snd step
      simp only at h2
      rw [← h2]
      rfl
    rw [hs]
    exact refcounts_after_leaf e0.ops (.Const b) rfl ih
  | is e0 e' p v idx prev step ih =>
    rcases is_ok_shape e0 e' p v idx step with ⟨cond, hs⟩
    rw [hs]
    exact refcounts_after_leaf e0.ops (.Is cond) rfl ih
  | is_in e0 e' p vs idx prev step ih =>
    rcases is_in_ok_shape e0 e' p vs idx step with ⟨cond, hs⟩
    rw [hs]
    exact refcounts_after_leaf e0.ops (.In cond) rfl ih
  | not e0 e' r idx prev step ih =>
    obtain ⟨hr, hs⟩ := not_ok_shape e0 e' r idx step
    rw [hs]
    exact refcounts_after_not e0.ops r hr ih
  | or e0 e' l r idx prev step ih =>
    obtain ⟨hl, hr, hs⟩ := or_ok_shape e0 e' l r idx step
    rw [hs]
    exact refcounts_after_two e0.ops (.Or l r) l r rfl hl hr ih
  | and e0 e' l r idx prev step ih =>
    obtain ⟨hl, hr, hs⟩ := and_ok_shape e0 e' l r idx step
    rw [hs]
    exact refcounts_after_two e0.ops (.And l r) l r rfl hl hr ih

/-- An existing entry survives an `incRef`, its count not decreasing. -/
theorem incRef_mono {Pid2 : Type} (ops : Operations Pid2) (j i : Nat)
    (opc : Operation Pid2 × RefCount) (h1 : ops[i]? = some opc) :
    ∃ opc2, (incRef ops j)[i]? = some opc2 ∧ opc.2 ≤ opc2.2 := by
  rw [incRef_getElem]
  by_cases hij : i = j
  · rw [if_pos hij, h1]
    exact ⟨(opc.1, opc.2 + 1), rfl, Nat.le_succ opc.2⟩
  · rw [if_neg hij]
    exact ⟨opc, h1, le_refl _⟩

/-- An existing entry survives an append unchanged. -/
theorem getElem_append_preserved {Pid2 : Type} (ops : Operations Pid2)
    (x : Operation Pid2 × RefCount) (i : Nat) (opc : Operation Pid2 × RefCount)
    (h1 : ops[i]? = some opc) : (ops ++ [x])[i]? = some opc := by
  have hlt : i < ops.length := by
    by_contra hh
    rw [List.getElem?_eq_none (by omega)] at h1
    cases h1
  rw [List.getElem?_append, if_pos hlt]
  exact h1

/-- C10: after any sequence of successful builder calls, every node's stored
reference count equals the number of operand occurrences of its index among
all later nodes (`and(i, i)` contributes two to node `i`'s count), and every
builder call — successful or not — never decreases the reference count of an
existing node. -/
theorem refcounts_track_operand_occurrences (e : Expression Pid) (h : Built e)
    (b : Bool) (p : Pid) (v : Value) (vs : List Value) (j l r : OpRef) :
    (∀ (i : Nat) (opc : Operation Pid × RefCount), e.ops[i]? = some opc →
      opc.2 = operandOccurrences e.ops i) ∧
    (∀ (i : Nat) (opc opc2 : Operation Pid × RefCount), e.ops[i]? = some opc →
      ((e.constant b).2).ops[i]? = some opc2 → opc.2 ≤ opc2.2) ∧
    (∀ (i : Nat) (opc opc2 : Operation Pid × RefCount), e.ops[i]? = some opc →
      ((e.is p v).2).ops[i]? = some opc2 → opc.2 ≤ opc2.2) ∧
    (∀ (i : Nat) (opc opc2 : Operation Pid × RefCount), e.ops[i]? = some opc →
      ((e.is_in p vs).2).ops[i]? = some opc2 → opc.2 ≤ opc2.2) ∧
    (∀ (i : Nat) (opc opc2 : Operation Pid × RefCount), e.ops[i]? = some opc →
      ((e.not j).2).ops[i]? = some opc2 → opc.2 ≤ opc2.2) ∧
    (∀ (i : Nat) (opc opc2 : Operation Pid × RefCount), e.ops[i]? = some opc →
      ((e.or l r).2).ops[i]? = some opc2 → opc.2 ≤ opc2.2) ∧
    (∀ (i : Nat) (opc opc2 : Operation Pid × RefCount), e.ops[i]? = some opc →
      ((e.and l r).2).ops[i]? = some opc2 → opc.2 ≤ opc2.2) := by
  refine ⟨built_refcounts e h, ?_, ?_, ?_, ?_, ?_, ?_⟩
  · intro i opc opc2 h1 h2
    have hpres := getElem_append_preserved e.ops (.Const b, 0) i opc h1
    have : ((e.constant b).2).ops = e.ops ++ [(.Const b, 0)] := rfl
    rw [this, hpres] at h2
    cases h2
    exact le_refl _
  · intro i opc opc2 h1 h2
    rcases hn : Is.new p v with err | cond
    · have : ((e.is p v).2) = e := by
        simp only [Expression.is, hn]
      rw [this, h1] at h2
      cases h2
      exact le_refl _
    · have : ((e.is p v).2).ops = e.ops ++ [(.Is cond, 0)] := by
        simp only [Expression.is, hn]
      rw [this, getElem_append_preserved e.ops (.Is cond, 0) i opc h1] at h2
      cases h2
      exact le_refl _
  · intro i opc opc2 h1 h2
    rcases hn : In.new p vs with err | cond
    · have : ((e.is_in p vs).2) = e := by
        simp only [Expression.is_in, hn]
      rw [this, h1] at h2
      cases h2
      exact le_refl _
    · have : ((e.is_in p vs).2).ops = e.ops ++ [(.In cond, 0)] := by
        simp only [Expression.is_in, hn]
      rw [this, getElem_append_preserved e.ops (.In cond, 0) i opc h1] at h2
      cases h2
      exact le_refl _
  · intro i opc opc2 h1 h2
    rcases hv : e.valid j with err | j2
    · have : ((e.not j).2) = e := by
        simp only [Expression.not, hv]
      rw [this, h1] at h2
      cases h2
      exact le_refl _
    · have hsh : ((e.not j).2).ops = incRef (e.ops ++ [(.Not j2, 0)]) j := by
        simp only [Expression.not, hv]
      rcases incRef_mono (e.ops ++ [(.Not j2, 0)]) j i opc
        (getElem_append_preserved e.ops (.Not j2, 0) i opc h1) with ⟨opc3, h3, hle⟩
      rw [hsh, h3] at h2
      cases h2
      exact hle
  · intro i opc opc2 h1 h2
    rcases hvl : e.valid l with err | l2
    · have : ((e.or l r).2) = e := by
        simp only [Expression.or, hvl]
      rw [this, h1] at h2
      cases h2
      exact le_refl _
    · rcases hvr : e.valid r with err | r2
      · have : ((e.or l r).2) = e := by
          simp only [Expression.or, hvl, hvr]
        rw [this, h1] at h2
        cases h2
        exact le_refl _
      · have hsh : ((e.or l r).2).ops =
            incRef (incRef (e.ops ++ [(.Or l2 r2, 0)]) l) r := by
          simp only [Expression.or, hvl, hvr]
        rcases incRef_mono (e.ops ++ [(.Or l2 r2, 0)]) l i opc
          (getElem_append_preserved e.ops (.Or l2 r2, 0) i opc h1) with
          ⟨opc3, h3, hle3⟩
        rcases incRef_mono (incRef (e.ops ++ [(.Or l2 r2, 0)]) l) r i opc3 h3 with
          ⟨opc4, h4, hle4⟩
        rw [hsh, h4] at h2
        cases h2
        exact le_trans hle3 hle4
  · intro i opc opc2 h1 h2
    rcases hvl : e.valid l with err | l2
    · have : ((e.and l r).2) = e := by
        simp only [Expression.and, hvl]
      rw [this, h1] at h2
      cases h2
      exact le_refl _
    · rcases hvr : e.valid r with err | r2
      · have : ((e.and l r).2) = e := by
          simp only [Expression.and, hvl, hvr]
        rw [this, h1] at h2
        cases h2
        exact le_refl _
      · have hsh : ((e.and l r).2).ops =
            incRef (incRef (e.ops ++ [(.And l2 r2, 0)]) l) r := by
          simp only [Expression.and, hvl, hvr]
        rcases incRef_mono (e.ops ++ [(.And l2 r2, 0)]) l i opc
          (getElem_append_preserved e.ops (.And l2 r2, 0) i opc h1) with
          ⟨opc3, h3, hle3⟩
        rcases incRef_mono (incRef (e.ops ++ [(.And l2 r2, 0)]) l) r i opc3 h3 with
          ⟨opc4, h4, hle4⟩
        rw [hsh, h4] at h2
        cases h2
        exact le_trans hle3 hle4

/-- C10 witness: `constant(true)` followed by `and(0, 0)` — the repeated
operand contributes two to node 0's count, matching its occurrence count. -/
theorem refcounts_track_operand_occurrences_witness :
    ((Operation.Const true, 2) : Operation TestProperty × RefCount).2 =
      operandOccurrences
        (⟨[(.Const true, 2), (.And 0 0, 0)]⟩ : Expression TestProperty).ops 0 := by
  have h1 : Built (⟨[(.Const true, 0)]⟩ : Expression TestProperty) :=
    .constant Expression.new ⟨[(.Const true, 0)]⟩ true 0 .empty rfl
  have h2 : Built (⟨[(.Const true, 2), (.And 0 0, 0)]⟩ : Expression TestProperty) :=
    .and ⟨[(.Const true, 0)]⟩ ⟨[(.Const true, 2), (.And 0 0, 0)]⟩ 0 0 1 h1 rfl
  exact (refcounts_track_operand_occurrences _ h2 true TestProperty.Int
    (Value.Int 0) [] 0 0 0).1 0 (.Const true, 2) rfl

end RefCountTheorem

end DomainQuery

